import Mathlib

/-!
Shallow embedding of the AIGC rewriter pipeline in `src/aigc/rewrite_tiktok_ds.py`.

Python strings are modelled as `List Char`; Python `json.loads` results are
modelled by the inductive type `JsonV`; a fallible operation returns `Option`.
Each definition is a direct translation of the source function it names.
-/

/-- Double-quote character (U+0022), written via its code point. -/
def dq : Char := Char.ofNat 34

/-- Apostrophe character (U+0027), written via its code point. -/
def apos : Char := Char.ofNat 39

/-- Backtick character (U+0060), written via its code point. -/
def backtick : Char := Char.ofNat 96

/-- Whitespace as recognised by Python `str.strip` / `\s` (ASCII subset;
the source never feeds non-ASCII whitespace to these helpers). -/
def isPySpace (c : Char) : Bool :=
  c == ' ' || c == '\t' || c == '\n' || c == '\r' || c == '\x0b' || c == '\x0c'

/-- Python `str.lstrip()`. -/
def lstripL (s : List Char) : List Char := s.dropWhile isPySpace

/-- Python `str.rstrip()`. -/
def rstripL (s : List Char) : List Char := (s.reverse.dropWhile isPySpace).reverse

/-- Python `str.strip()`. -/
def stripPy (s : List Char) : List Char := rstripL (lstripL s)

/-- Python `s.startswith("```")` (rewrite_tiktok_ds.py line 96). -/
def startsFence : List Char → Bool
  | a :: b :: c :: _ => a == backtick && b == backtick && c == backtick
  | _ => false

/-- The four characters of the literal `json` in the fence regex. -/
def jsonWord : List Char := ['j', 's', 'o', 'n']

/-- Effect of the leading alternative of `re.sub(r"^```(?:json)?\s*|\s*```$", "", s)`
on a string known to start with three backticks: drop the backticks, an
optional `json`, then the greedy run of whitespace. -/
def dropFenceHead (s : List Char) : List Char :=
  let s1 := s.drop 3
  let s2 := if jsonWord.isPrefixOf s1 then s1.drop 4 else s1
  s2.dropWhile isPySpace

/-- Effect of the trailing alternative `\s*```$` of the fence regex on the
remainder of the scan: the string at this point is stripped, so `$` is the
end of the string; remove a final three backticks together with the
whitespace run immediately before them, if present. -/
def dropFenceTail (s : List Char) : List Char :=
  let r := s.reverse
  if startsFence r then ((r.drop 3).dropWhile isPySpace).reverse else s

/-- Translation of `strip_code_fences` (lines 94-102): strip, remove a
Markdown code fence when the text starts with one, then remove trailing
whitespace from every line. -/
def strip_code_fences (s0 : List Char) : List Char :=
  let s := stripPy s0
  let s := if startsFence s then dropFenceTail (dropFenceHead s) else s
  List.intercalate ['\n'] ((s.splitOn '\n').map rstripL)

/-- Python `str.replace` for a single-character pattern and replacement. -/
def replaceChar (a b : Char) (s : List Char) : List Char :=
  s.map fun c => if c = a then b else c

/-- Translation of `normalize_quotes` (lines 104-111): smart double and
single quotation marks become their ASCII counterparts; CJK quotes are
deliberately left alone by the source. -/
def normalize_quotes (s : List Char) : List Char :=
  replaceChar '’' apos (replaceChar '‘' apos (replaceChar '”' dq (replaceChar '“' dq s)))

/-- State machine of `escape_newlines_in_strings` (lines 113-126); the two
booleans are `in_str` and `esc`.  A bare newline or carriage return observed
inside a string literal becomes the two characters backslash-`n`. -/
def escGo : Bool → Bool → List Char → List Char
  | true, true, c :: r => c :: escGo true false r
  | true, false, c :: r =>
    if c = '\\' then c :: escGo true true r
    else if c = dq then c :: escGo false false r
    else if c = '\n' || c = '\r' then '\\' :: 'n' :: escGo true false r
    else c :: escGo true false r
  | false, esc, c :: r => if c = dq then c :: escGo true false r else c :: escGo false esc r
  | _, _, [] => []

/-- Translation of `escape_newlines_in_strings` (lines 113-126). -/
def escape_newlines_in_strings (s : List Char) : List Char := escGo false false s

/-- Scan of `trim_to_complete_json` (lines 128-149): position `i`, object
and array depths (which may go negative, hence `Int`), string/escape state,
and the index of the last top-level-complete closing bracket seen so far. -/
def trimGo : List Char → Nat → Int → Int → Bool → Bool → Option Nat → Option Nat
  | [], _, _, _, _, _, last => last
  | c :: r, i, dObj, dArr, inStr, esc, last =>
    if inStr then
      if esc then trimGo r (i + 1) dObj dArr true false last
      else if c = '\\' then trimGo r (i + 1) dObj dArr true true last
      else if c = dq then trimGo r (i + 1) dObj dArr false false last
      else trimGo r (i + 1) dObj dArr true esc last
    else
      if c = dq then trimGo r (i + 1) dObj dArr true esc last
      else if c = '{' then trimGo r (i + 1) (dObj + 1) dArr false esc last
      else if c = '}' then
        trimGo r (i + 1) (dObj - 1) dArr false esc
          (if dObj - 1 = 0 ∧ dArr = 0 then some i else last)
      else if c = '[' then trimGo r (i + 1) dObj (dArr + 1) false esc last
      else if c = ']' then
        trimGo r (i + 1) dObj (dArr - 1) false esc
          (if dArr - 1 = 0 ∧ dObj = 0 then some i else last)
      else trimGo r (i + 1) dObj dArr false esc last

/-- Translation of `trim_to_complete_json` (lines 128-149): keep the text up
to the last complete top-level object or array; leave the text unchanged
when no complete span was found. -/
def trim_to_complete_json (s : List Char) : List Char :=
  match trimGo s 0 0 0 false false none with
  | some i => s.take (i + 1)
  | none => s

/-- Translation of lines 165-167: `s.rfind('}')` followed by slicing up to
and including that brace; `none` when the text has no closing brace. -/
def take_to_last_brace (s : List Char) : Option (List Char) :=
  match s.reverse.dropWhile (fun c => !(c == '}')) with
  | [] => none
  | r => some r.reverse

/-- Values produced by Python `json.loads`: `None`, booleans, numbers,
strings, lists and dicts (as association lists of key/value pairs). -/
inductive JsonV : Type where
  | null : JsonV
  | bool : Bool → JsonV
  | num : ℚ → JsonV
  | str : List Char → JsonV
  | arr : List JsonV → JsonV
  | obj : List (List Char × JsonV) → JsonV

/-- Steps 1-3 of the Response Normalizer, as composed on lines 152-154:
code-fence stripping, smart-quote normalization, then in-string newline
escaping. -/
def normalized_response (raw : List Char) : List Char :=
  escape_newlines_in_strings (normalize_quotes (strip_code_fences raw))

/-- Translation of `robust_parse_json` (lines 151-172), parametrised by the
strict JSON parser `parse` standing for `json.loads` (`none` models a
`JSONDecodeError`): parse the normalized text; on failure retry on the text
trimmed to its last balanced span; on failure again retry on the text
truncated after its last closing brace; `none` when everything failed. -/
def robust_parse_json (parse : List Char → Option JsonV) (raw : List Char) : Option JsonV :=
  let s := normalized_response raw
  match parse s with
  | some v => some v
  | none =>
    match parse (trim_to_complete_json s) with
    | some v => some v
    | none =>
      match take_to_last_brace s with
      | some s3 => parse s3
      | none => none

/-- Key `tts`. -/
def ttsKey : List Char := ['t', 't', 's']

/-- Key `caption`. -/
def captionKey : List Char := ['c', 'a', 'p', 't', 'i', 'o', 'n']

/-- Key `variants`. -/
def variantsKey : List Char := ['v', 'a', 'r', 'i', 'a', 'n', 't', 's']

/-- Python `key in data` for a dict. -/
def hasKey (k : List Char) (fs : List (List Char × JsonV)) : Bool :=
  fs.any fun p => p.1 == k

/-- Translation of the shape-validation block of `main` (lines 424-443),
turning the parsed value `data` into the batch's variant list for requested
count `k`; `none` models the `RuntimeError`s raised there. -/
def normalizeToVariants (data : JsonV) (k : Nat) : Option (List JsonV) :=
  if k = 1 then
    match data with
    | JsonV.obj fs =>
      if hasKey ttsKey fs || hasKey captionKey fs then some [data]
      else
        match List.lookup variantsKey fs with
        | some (JsonV.arr vs) => if 1 ≤ vs.length then some (vs.take 1) else none
        | _ => none
    | _ => none
  else
    match data with
    | JsonV.obj fs =>
      match List.lookup variantsKey fs with
      | some (JsonV.arr vs) =>
        if vs.length ≠ k then
          if k < vs.length then some (vs.take k) else none
        else some vs
      | _ => none
    | _ => none

/-- Character class `[\w\-一-鿿]` of `HASHTAG_PATTERN` (line 14),
modelled on the alphabets the repository's captions use: ASCII
alphanumerics, underscore, hyphen, and the CJK unified ideographs range. -/
def isTagChar (c : Char) : Bool :=
  c.isAlphanum || c == '_' || c == '-' || (0x4e00 ≤ c.toNat && c.toNat ≤ 0x9fff)

/-- Combined scan realising `HASHTAG_PATTERN.finditer` and
`HASHTAG_PATTERN.sub("", ...)` (lines 62-63) in one left-to-right pass.
First argument: `none` when outside a candidate match, `some acc` when a
`#` has been read and `acc` holds the (reversed) tag characters read since.
Returns the text with every match removed, together with the matches, each
reassembled as `#` + group. -/
def tagScan : Option (List Char) → List Char → List Char × List (List Char)
  | none, [] => ([], [])
  | none, c :: r =>
    if c = '#' then tagScan (some []) r
    else
      let (b, ts) := tagScan none r
      (c :: b, ts)
  | some acc, [] =>
    if acc = [] then (['#'], []) else ([], ['#' :: acc.reverse])
  | some acc, c :: r =>
    if isTagChar c then tagScan (some (c :: acc)) r
    else if acc = [] then
      if c = '#' then
        let (b, ts) := tagScan (some []) r
        ('#' :: b, ts)
      else
        let (b, ts) := tagScan none r
        ('#' :: c :: b, ts)
    else
      if c = '#' then
        let (b, ts) := tagScan (some []) r
        (b, ('#' :: acc.reverse) :: ts)
      else
        let (b, ts) := tagScan none r
        (c :: b, ('#' :: acc.reverse) :: ts)

/-- State machine for `re.sub(r"\s{2,}", " ", body)` (line 64): a maximal
whitespace run of length at least two becomes a single space, a lone
whitespace character is kept verbatim.  The flag is true while inside a run
that has already been collapsed. -/
def cwGo : Bool → List Char → List Char
  | _, [] => []
  | true, c :: r => if isPySpace c then cwGo true r else c :: cwGo false r
  | false, c :: r =>
    if isPySpace c then
      match r with
      | [] => [c]
      | d :: _ => if isPySpace d then ' ' :: cwGo true r else c :: cwGo false r
    else c :: cwGo false r

/-- Whitespace-run collapsing of line 64. -/
def collapse_ws (s : List Char) : List Char := cwGo false s

/-- Translation of `split_caption_and_tags` (lines 61-65): extract the
hashtags, remove them from the text, collapse whitespace runs, strip. -/
def split_caption_and_tags (caption : List Char) : List Char × List (List Char) :=
  let (removed, tags) := tagScan none caption
  (stripPy (collapse_ws removed), tags)

/-- Translation of the caption fan-out on lines 459-462: the model's caption
value (or the empty string when absent or falsy) is stripped, and when the
extracted tag list is nonempty the space-joined tags are appended after a
newline, with a final strip. -/
def written_caption (modelCaption : Option (List Char)) (tags : List (List Char)) : List Char :=
  let capOut := stripPy (modelCaption.getD [])
  if tags.isEmpty then capOut
  else stripPy (capOut ++ '\n' :: List.intercalate [' '] tags)

/-- Translation of `per_req = max(1, args.variants_per_request)` (line 380);
the CLI value is an `int`, the clamped value is at least 1 so it is
represented as a `Nat`. -/
def per_req (vpr : Int) : Nat := (max 1 vpr).toNat

/-- Success-path batch sizes of the orchestration loop (lines 385-390 and
468): while `made < total` the next batch has size
`k = min per (total - made)` and `made` grows by the `k` variants written.
The structural fuel bounds the number of iterations; since each iteration
increases `made` by at least 1 whenever `per ≥ 1`, fuel `total` is enough
and the `fuel = 0` branch is never reached from `batch_sizes`. -/
def batchSizesGo (total per : Nat) : Nat → Nat → List Nat
  | 0, _ => []
  | fuel + 1, made =>
    if made < total then
      min per (total - made) :: batchSizesGo total per fuel (made + min per (total - made))
    else []

/-- Batch sizes of a whole job for requested total `total` and CLI
variants-per-request `vpr`. -/
def batch_sizes (total : Nat) (vpr : Int) : List Nat :=
  batchSizesGo total (per_req vpr) total 0

/-- One turn of the orchestration loop (lines 379-469), abstracted over an
oracle giving each batch's parsed response (`none` models a batch whose
retries were exhausted, which aborts the job).  Returns the global variant
indices in the order the variant files are written: line 448 increments
`global_variant_index` once per variant before using it as the file index.
The `while made < total` guard (line 385) is tested before any fuel is
consumed, exactly as the Python loop tests it before doing any work, so a
call with `made ≥ total` — including a `total = 0` job — terminates with
`some []` regardless of fuel.  The structural fuel bounds the number of
loop iterations; each successful batch writes at least one variant when
`per ≥ 1`, so fuel `total` is enough for every job `run_job` starts, and
the fuel-exhaustion branch is unreachable from `run_job`
(`jobGo_completes` below proves the sufficiency). -/
def jobGo (oracle : Nat → Option JsonV) (total per : Nat) :
    Nat → Nat → Nat → Nat → Option (List Nat)
  | fuel, batchIdx, made, gvi =>
    if made < total then
      match fuel with
      | 0 => none
      | fuel' + 1 =>
        match oracle batchIdx with
        | none => none
        | some data =>
          match normalizeToVariants data (min per (total - made)) with
          | none => none
          | some vs =>
            match jobGo oracle total per fuel' (batchIdx + 1) (made + vs.length)
                (gvi + vs.length) with
            | none => none
            | some rest => some (List.range' (gvi + 1) vs.length ++ rest)
    else some []

/-- Whole-job run of the orchestration loop: `made`, `batch_index` and
`global_variant_index` start at zero (lines 379-383); the per-request size
is clamped on line 380. -/
def run_job (oracle : Nat → Option JsonV) (total : Nat) (vpr : Int) : Option (List Nat) :=
  jobGo oracle total (per_req vpr) total 0 0 0

/-- Backoff delay before re-entering the request state:
`time.sleep(1.2 * (attempt + 1))` (line 422), with 1.2 as the rational 6/5. -/
def backoff_delay (attempt : Nat) : ℚ := (6 / 5 : ℚ) * (attempt + 1)

/-- Per-batch retry loop of `main` (lines 396-422), abstracted over
`call : Nat → Option (List Char)` giving the raw text of each attempt
(`none` models a network/provider exception, in which case the `raw`
variable keeps its previous value).  Arguments after `retries`: structural
fuel (the loop runs at most `retries + 1` times, so fuel `retries + 1` is
enough and the `fuel = 0` branch is never reached from `run_with_retries`),
the attempt index, the current value of `raw`, and the backoff delays slept
so far.  The error value carries `raw[:800]` (line 421). -/
def retryGo (parse : List Char → Option JsonV) (call : Nat → Option (List Char))
    (retries : Nat) : Nat → Nat → List Char → List ℚ →
    Except (List Char) JsonV × List ℚ
  | 0, _, raw, ds => (Except.error (raw.take 800), ds)
  | fuel + 1, a, raw, ds =>
    let step : List Char → Except (List Char) JsonV × List ℚ := fun raw' =>
      if retries ≤ a then (Except.error (raw'.take 800), ds)
      else retryGo parse call retries fuel (a + 1) raw' (ds ++ [backoff_delay a])
    match call a with
    | none => step raw
    | some r =>
      if (stripPy r).isEmpty then step r
      else
        match robust_parse_json parse r with
        | none => step r
        | some d => (Except.ok d, ds)

/-- The retry loop as entered by `main`: `raw = ""` before the loop
(line 396) and attempts are numbered from 0 (line 397). -/
def run_with_retries (parse : List Char → Option JsonV) (call : Nat → Option (List Char))
    (retries : Nat) : Except (List Char) JsonV × List ℚ :=
  retryGo parse call retries (retries + 1) 0 [] []

/-- Whether one retry attempt fails: the request itself raised, or the
response was empty after stripping (line 415-416), or robust parsing failed
(line 417). -/
def attemptFails (parse : List Char → Option JsonV) : Option (List Char) → Bool
  | none => true
  | some r => (stripPy r).isEmpty || (robust_parse_json parse r).isNone

/-- Value of the `raw` variable after attempts `0..n` have run, starting
from `raw₀`: each attempt whose call returns text overwrites `raw`. -/
def rawAfter (call : Nat → Option (List Char)) (raw₀ : List Char) (n : Nat) : List Char :=
  (List.range (n + 1)).foldl (fun acc a => match call a with | some r => r | none => acc) raw₀

/-- No smart-quote character occurs in the text. -/
def cleanQuotes (s : List Char) : Bool :=
  s.all fun c => !(c == '“' || c == '”' || c == '‘' || c == '’')

/-- Scan deciding that no bare newline or carriage return occurs inside a
string literal of the text; same string/escape automaton as `escGo` but
merely observing. -/
def cleanStrScan : Bool → Bool → List Char → Bool
  | true, true, _ :: r => cleanStrScan true false r
  | true, false, c :: r =>
    if c = '\\' then cleanStrScan true true r
    else if c = dq then cleanStrScan false false r
    else if c = '\n' || c = '\r' then false
    else cleanStrScan true false r
  | false, esc, c :: r => if c = dq then cleanStrScan true false r else cleanStrScan false esc r
  | _, _, [] => true

/-- Clean JSON text in the sense of the Normalizer's steps 1-3: already
stripped, not starting with a code fence, no trailing whitespace on any
line, no smart quotes, and no bare newline inside a string literal.  Any
strict-JSON document emitted in this shape satisfies the predicate. -/
def isCleanJsonText (s : List Char) : Bool :=
  (stripPy s == s) && !startsFence s &&
    ((s.splitOn '\n').all fun l => rstripL l == l) &&
    cleanQuotes s && cleanStrScan false false s

/-- Shape of a tag produced by the hashtag pattern: a `#` followed by a
nonempty run of tag characters. -/
def isTagShaped : List Char → Bool
  | c :: rest => c == '#' && !rest.isEmpty && rest.all isTagChar
  | [] => false

/-! Characterizations of the shape-validation block. -/

/-- The multi-variant branch of the shape validation (lines 433-443) in
closed form: for `k ≠ 1` the value must be an object whose `variants`
entry is a list of length at least `k`, and the result is its first `k`
elements. -/
theorem normalizeToVariants_multi (fs : List (List Char × JsonV)) (k : Nat) (hk : 1 < k) :
    normalizeToVariants (JsonV.obj fs) k =
      (match List.lookup variantsKey fs with
       | some (JsonV.arr ws) => if k ≤ ws.length then some (ws.take k) else none
       | _ => none) := by
  have hk1 : ¬ k = 1 := by omega
  simp only [normalizeToVariants, if_neg hk1]
  cases List.lookup variantsKey fs with
  | none => rfl
  | some v =>
    cases v with
    | arr ws =>
      by_cases h : ws.length = k
      · subst h
        simp [List.take_length]
      · by_cases hlt : k < ws.length
        · simp only [if_pos (by omega : ws.length ≠ k), if_pos hlt,
            if_pos (Nat.le_of_lt hlt)]
        · simp only [if_pos (by omega : ws.length ≠ k), if_neg hlt,
            if_neg (by omega : ¬ k ≤ ws.length)]
    | null => rfl
    | bool b => rfl
    | num q => rfl
    | str s => rfl
    | obj o => rfl

/-- The single-variant branch of the shape validation (lines 426-432) in
closed form: the `if k = 1` guard stripped away. -/
theorem normalizeToVariants_one (data : JsonV) :
    normalizeToVariants data 1 =
      (match data with
       | JsonV.obj fs =>
         if hasKey ttsKey fs || hasKey captionKey fs then some [JsonV.obj fs]
         else
           match List.lookup variantsKey fs with
           | some (JsonV.arr ws) => if 1 ≤ ws.length then some (ws.take 1) else none
           | _ => none
       | _ => none) := by
  cases data <;> rfl

/-- A successful shape validation yields exactly `k` variants, for any
requested count `k ≥ 1`. -/
theorem normalizeToVariants_length (data : JsonV) (k : Nat) (vs : List JsonV)
    (hk : 1 ≤ k) (h : normalizeToVariants data k = some vs) : vs.length = k := by
  by_cases h1 : k = 1
  · subst h1
    rw [normalizeToVariants_one] at h
    cases data with
    | obj fs =>
      by_cases hks : hasKey ttsKey fs || hasKey captionKey fs
      · simp only [hks, if_true] at h
        cases h; rfl
      · simp only [hks, if_false, Bool.false_eq_true] at h
        cases hl : List.lookup variantsKey fs with
        | none => rw [hl] at h; cases h
        | some v =>
          rw [hl] at h
          cases v with
          | arr ws =>
            by_cases hw : 1 ≤ ws.length
            · simp only [hw, if_true] at h
              cases h
              simp [List.length_take]; omega
            · simp [hw] at h
          | null => cases h
          | bool b => cases h
          | num q => cases h
          | str s => cases h
          | obj o => cases h
    | null => cases h
    | bool b => cases h
    | num q => cases h
    | str s => cases h
    | arr a => cases h
  · have hk2 : 1 < k := by omega
    cases data with
    | obj fs =>
      rw [normalizeToVariants_multi fs k hk2] at h
      cases hl : List.lookup variantsKey fs with
      | none => rw [hl] at h; cases h
      | some v =>
        rw [hl] at h
        cases v with
        | arr ws =>
          by_cases hw : k ≤ ws.length
          · simp only [hw, if_true] at h
            cases h
            simp [List.length_take]; omega
          · simp [hw] at h
        | null => cases h
        | bool b => cases h
        | num q => cases h
        | str s => cases h
        | obj o => cases h
    | null => simp [normalizeToVariants, h1] at h
    | bool b => simp [normalizeToVariants, h1] at h
    | num q => simp [normalizeToVariants, h1] at h
    | str s => simp [normalizeToVariants, h1] at h
    | arr a => simp [normalizeToVariants, h1] at h

/-- Claim C1: for a batch with requested variant count `k > 1`, the Normalizer
accepts the parsed value only when it is an object whose `variants` value
is a list; a list longer than `k` is truncated to its first `k` elements, a
shorter list is a hard failure, and every non-failing outcome has exactly
`k` variants. -/
theorem c1_multi_variant_shape (data : JsonV) (k : Nat) (hk : 1 < k) :
    (∀ vs, normalizeToVariants data k = some vs → vs.length = k)
  ∧ (∀ vs, normalizeToVariants data k = some vs ↔
      ∃ fs ws, data = JsonV.obj fs ∧ List.lookup variantsKey fs = some (JsonV.arr ws) ∧
        k ≤ ws.length ∧ vs = ws.take k)
  ∧ (∀ fs ws, data = JsonV.obj fs → List.lookup variantsKey fs = some (JsonV.arr ws) →
      ws.length < k → normalizeToVariants data k = none) := by
  refine ⟨fun vs h => normalizeToVariants_length data k vs (by omega) h, ?_, ?_⟩
  · intro vs
    constructor
    · intro h
      cases data with
      | obj fs =>
        rw [normalizeToVariants_multi fs k hk] at h
        cases hl : List.lookup variantsKey fs with
        | none => rw [hl] at h; cases h
        | some v =>
          rw [hl] at h
          cases v with
          | arr ws =>
            by_cases hw : k ≤ ws.length
            · simp only [hw, if_true] at h
              cases h
              exact ⟨fs, ws, rfl, hl, hw, rfl⟩
            · simp [hw] at h
          | null => cases h
          | bool b => cases h
          | num q => cases h
          | str s => cases h
          | obj o => cases h
      | null => simp [normalizeToVariants, (by omega : ¬ k = 1)] at h
      | bool b => simp [normalizeToVariants, (by omega : ¬ k = 1)] at h
      | num q => simp [normalizeToVariants, (by omega : ¬ k = 1)] at h
      | str s => simp [normalizeToVariants, (by omega : ¬ k = 1)] at h
      | arr a => simp [normalizeToVariants, (by omega : ¬ k = 1)] at h
    · rintro ⟨fs, ws, rfl, hl, hw, rfl⟩
      rw [normalizeToVariants_multi fs k hk, hl]
      simp [hw]
  · rintro fs ws rfl hl hshort
    rw [normalizeToVariants_multi fs k hk, hl]
    simp only [if_neg (by omega : ¬ k ≤ ws.length)]

/-- Witness for C1 at `k = 2` and a `variants` list of length 3: the
hypotheses hold and the accepted batch has exactly 2 variants. -/
theorem c1_multi_variant_shape_witness :
    (1 < 2)
  ∧ normalizeToVariants
      (JsonV.obj [(variantsKey, JsonV.arr [JsonV.null, JsonV.bool true, JsonV.null])]) 2
      = some [JsonV.null, JsonV.bool true]
  ∧ ([JsonV.null, JsonV.bool true] : List JsonV).length = 2 :=
  ⟨by decide, rfl,
    (c1_multi_variant_shape
      (JsonV.obj [(variantsKey, JsonV.arr [JsonV.null, JsonV.bool true, JsonV.null])]) 2
      (by decide)).1 [JsonV.null, JsonV.bool true] rfl⟩

/-- Counterexample to C3 as stated: an object carrying only a `tts` key —
no `caption` key and no `variants` list — is accepted by the `k = 1`
shape validation instead of raising, because line 427 tests
`"tts" in data or "caption" in data`. -/
theorem c3_counterexample :
    normalizeToVariants (JsonV.obj [(ttsKey, JsonV.str [])]) 1
      = some [JsonV.obj [(ttsKey, JsonV.str [])]]
  ∧ hasKey captionKey [(ttsKey, JsonV.str [])] = false
  ∧ List.lookup variantsKey [(ttsKey, JsonV.str [])] = none :=
  ⟨rfl, rfl, rfl⟩

/-- Claim C3 as amended: for `k = 1` the Normalizer accepts the parsed value
exactly when it is an object containing a `tts` key or a `caption` key
(the disjunction is tested regardless of TTS mode), or an object without
either key whose `variants` value is a list of length at least 1, truncated
to its first element; every other shape raises, and every accepted batch
has exactly one variant. -/
theorem c3_single_variant_shape :
    (∀ data vs, normalizeToVariants data 1 = some vs → vs.length = 1)
  ∧ (∀ data vs, normalizeToVariants data 1 = some vs ↔
      (∃ fs, data = JsonV.obj fs ∧ (hasKey ttsKey fs || hasKey captionKey fs) = true ∧
        vs = [data])
      ∨ (∃ fs ws, data = JsonV.obj fs ∧ (hasKey ttsKey fs || hasKey captionKey fs) = false ∧
          List.lookup variantsKey fs = some (JsonV.arr ws) ∧ 1 ≤ ws.length ∧
          vs = ws.take 1)) := by
  refine ⟨fun data vs h => normalizeToVariants_length data 1 vs (by omega) h, ?_⟩
  intro data vs
  constructor
  · intro h
    cases data with
    | obj fs =>
      rw [normalizeToVariants_one] at h
      by_cases hks : (hasKey ttsKey fs || hasKey captionKey fs) = true
      · simp only [hks, if_true] at h
        cases h
        exact Or.inl ⟨fs, rfl, hks, rfl⟩
      · simp only [hks, if_false, Bool.false_eq_true] at h
        cases hl : List.lookup variantsKey fs with
        | none => rw [hl] at h; cases h
        | some v =>
          rw [hl] at h
          cases v with
          | arr ws =>
            by_cases hw : 1 ≤ ws.length
            · simp only [hw, if_true] at h
              cases h
              exact Or.inr ⟨fs, ws, rfl, by simpa using hks, hl, hw, rfl⟩
            · simp [hw] at h
          | null => cases h
          | bool b => cases h
          | num q => cases h
          | str s => cases h
          | obj o => cases h
    | null => cases h
    | bool b => cases h
    | num q => cases h
    | str s => cases h
    | arr a => cases h
  · rintro (⟨fs, rfl, hks, rfl⟩ | ⟨fs, ws, rfl, hks, hl, hw, rfl⟩)
    · rw [normalizeToVariants_one]
      simp [hks]
    · rw [normalizeToVariants_one]
      simp [hks, hl, hw]

/-- Witness for the amended C3: a bare `caption` object is accepted whole,
and the accepted batch has exactly one variant. -/
theorem c3_single_variant_shape_witness :
    normalizeToVariants (JsonV.obj [(captionKey, JsonV.str [])]) 1
      = some [JsonV.obj [(captionKey, JsonV.str [])]]
  ∧ ([JsonV.obj [(captionKey, JsonV.str [])]] : List JsonV).length = 1 :=
  ⟨rfl, c3_single_variant_shape.1 (JsonV.obj [(captionKey, JsonV.str [])])
    [JsonV.obj [(captionKey, JsonV.str [])]] rfl⟩

/-- Claim C8: splitting the caption `"Hello #fun #test"` yields exactly the tags
`#fun` and `#test` and the body `Hello` that is passed to the prompt
builder. -/
theorem c8_example_split :
    split_caption_and_tags "Hello #fun #test".data
      = ("Hello".data, ["#fun".data, "#test".data]) := by
  decide

/-! Lemmas about the orchestration loop. -/

/-- Wherever the batch-size schedule is decomposed around one element,
that element equals `min per (total - made-so-far)`, where made-so-far is
the sum of the batch sizes before it. -/
theorem batchSizesGo_decomp (total per : Nat) :
    ∀ (fuel made : Nat) (pre : List Nat) (s : Nat) (post : List Nat),
      batchSizesGo total per fuel made = pre ++ s :: post →
      s = min per (total - (made + pre.sum)) := by
  intro fuel
  induction fuel with
  | zero => intro made pre s post h; simp [batchSizesGo] at h
  | succ n ih =>
    intro made pre s post h
    rw [batchSizesGo] at h
    by_cases hm : made < total
    · rw [if_pos hm] at h
      cases pre with
      | nil =>
        rw [List.nil_append] at h
        have hs := (List.cons.injEq _ _ _ _).mp h
        simp [← hs.1]
      | cons p ps =>
        rw [List.cons_append] at h
        have hs := (List.cons.injEq _ _ _ _).mp h
        have := ih _ ps s post hs.2
        rw [this, ← hs.1]
        congr 2
        simp [List.sum_cons]
        omega
    · rw [if_neg hm] at h
      simp at h

/-- The clamped per-request size is always at least 1. -/
theorem per_req_pos (vpr : Int) : 1 ≤ per_req vpr := by
  unfold per_req
  rcases le_total 1 vpr with h | h
  · rw [max_eq_right h]; omega
  · rw [max_eq_left h]; decide

/-- With a positive per-request size and enough fuel, the schedule's sizes
add up to exactly the remaining count: the loop terminates with
`made = total`. -/
theorem batchSizesGo_sum (total per : Nat) (hper : 1 ≤ per) :
    ∀ (fuel made : Nat), total - made ≤ fuel →
      (batchSizesGo total per fuel made).sum = total - made := by
  intro fuel
  induction fuel with
  | zero => intro made h; rw [batchSizesGo]; simp; omega
  | succ n ih =>
    intro made h
    rw [batchSizesGo]
    by_cases hm : made < total
    · rw [if_pos hm, List.sum_cons, ih (made + min per (total - made)) (by omega)]
      omega
    · rw [if_neg hm]; simp; omega

/-- Every scheduled batch size is at least 1 when the per-request size is. -/
theorem batchSizesGo_mem (total per : Nat) (hper : 1 ≤ per) :
    ∀ (fuel made : Nat) (s : Nat), s ∈ batchSizesGo total per fuel made → 1 ≤ s := by
  intro fuel
  induction fuel with
  | zero => intro made s h; simp [batchSizesGo] at h
  | succ n ih =>
    intro made s h
    rw [batchSizesGo] at h
    by_cases hm : made < total
    · rw [if_pos hm, List.mem_cons] at h
      rcases h with h | h
      · omega
      · exact ih _ s h
    · rw [if_neg hm] at h; simp at h

/-- Claim C5: in every iteration of the orchestration loop the batch size is
`min(per-request size, total - made)` where `made` is the number of
variants written by the earlier batches; in particular the job with
`total = 5` and `variants_per_request = 2` runs batches of sizes
`[2, 2, 1]` and ends with `made = 5`. -/
theorem c5_batch_size_schedule :
    (∀ (total : Nat) (vpr : Int) (pre : List Nat) (s : Nat) (post : List Nat),
        batch_sizes total vpr = pre ++ s :: post →
        s = min (per_req vpr) (total - pre.sum))
  ∧ batch_sizes 5 2 = [2, 2, 1] ∧ (batch_sizes 5 2).sum = 5 := by
  refine ⟨?_, by decide, by decide⟩
  intro total vpr pre s post h
  have := batchSizesGo_decomp total (per_req vpr) total 0 pre s post h
  simpa using this

/-- Witness for C5: the third batch of the `total = 5`,
`variants_per_request = 2` job has size `min 2 (5 - 4) = 1`. -/
theorem c5_batch_size_schedule_witness :
    batch_sizes 5 2 = [2, 2] ++ 1 :: [] ∧ (1 : Nat) = min (per_req 2) (5 - ([2, 2] : List Nat).sum) :=
  ⟨by decide, c5_batch_size_schedule.1 5 2 [2, 2] 1 [] (by decide)⟩

/-- Claim C10: the loop uses `max(1, variants_per_request)` as per-request batch
size — a zero or negative CLI value is silently clamped to 1 — so every
batch requests at least one variant and the loop always reaches
`made = total`. -/
theorem c10_clamped_per_request :
    ∀ (total : Nat) (vpr : Int),
      (vpr ≤ 0 → per_req vpr = 1)
    ∧ (1 ≤ vpr → per_req vpr = vpr.toNat)
    ∧ (∀ s ∈ batch_sizes total vpr, 1 ≤ s)
    ∧ (batch_sizes total vpr).sum = total := by
  intro total vpr
  refine ⟨?_, ?_, ?_, ?_⟩
  · intro h
    unfold per_req
    rw [max_eq_left (by omega)]
    decide
  · intro h
    unfold per_req
    rw [max_eq_right (by omega)]
  · intro s hs
    exact batchSizesGo_mem total (per_req vpr) (per_req_pos vpr) total 0 s hs
  · have := batchSizesGo_sum total (per_req vpr) (per_req_pos vpr) total 0 (by omega)
    simpa using this

/-- Witness for C10 at `variants_per_request = -3`, `total = 4`: the clamp
yields 1, all four batches have size 1, and they sum to the total. -/
theorem c10_clamped_per_request_witness :
    ((-3 : Int) ≤ 0) ∧ per_req (-3) = 1 ∧ (batch_sizes 4 (-3)).sum = 4 :=
  ⟨by decide, (c10_clamped_per_request 4 (-3)).1 (by decide),
    (c10_clamped_per_request 4 (-3)).2.2.2⟩

/-- Consecutive elements of `List.range' s n` increase by exactly 1. -/
theorem chain'_succ_range' (s n : Nat) :
    List.Chain' (fun a b => b = a + 1) (List.range' s n) := by
  induction n generalizing s with
  | zero => simp
  | succ m ih =>
    rw [List.range'_succ, List.chain'_cons']
    refine ⟨?_, ih (s + 1)⟩
    intro b hb
    rw [List.head?_range'] at hb
    cases m with
    | zero => simp at hb
    | succ k =>
      simp only [Nat.succ_ne_zero, if_false] at hb
      cases hb
      rfl

/-- Invariant of the orchestration loop: starting from `made` variants
made and global index `gvi`, a successful run writes exactly the indices
`gvi + 1, gvi + 2, ..., gvi + (total - made)` in order. -/
theorem jobGo_spec (oracle : Nat → Option JsonV) (total per : Nat) (hper : 1 ≤ per) :
    ∀ (fuel batchIdx made gvi : Nat) (l : List Nat),
      jobGo oracle total per fuel batchIdx made gvi = some l →
      l = List.range' (gvi + 1) (total - made) := by
  intro fuel
  induction fuel with
  | zero =>
    intro b made gvi l h
    rw [jobGo] at h
    by_cases hm : made < total
    · rw [if_pos hm] at h
      cases h
    · rw [if_neg hm] at h
      cases h
      have h0 : total - made = 0 := by omega
      rw [h0]
      rfl
  | succ n ih =>
    intro b made gvi l h
    rw [jobGo] at h
    by_cases hm : made < total
    · rw [if_pos hm] at h
      cases ho : oracle b with
      | none => rw [ho] at h; cases h
      | some data =>
        simp only [ho] at h
        cases hn : normalizeToVariants data (min per (total - made)) with
        | none => simp only [hn] at h; cases h
        | some vs =>
          simp only [hn] at h
          cases hr : jobGo oracle total per n (b + 1) (made + vs.length) (gvi + vs.length) with
          | none => simp only [hr] at h; cases h
          | some rest =>
            simp only [hr, Option.some.injEq] at h
            subst h
            have hlen : vs.length = min per (total - made) :=
              normalizeToVariants_length data _ vs (by omega) hn
            rw [ih (b + 1) (made + vs.length) (gvi + vs.length) rest hr]
            have h1 : gvi + vs.length + 1 = (gvi + 1) + vs.length := by omega
            rw [h1, List.range'_append_1]
            congr 1
            omega
    · rw [if_neg hm] at h
      cases h
      have h0 : total - made = 0 := by omega
      rw [h0]
      rfl

/-- Fuel sufficiency for the orchestration loop: with the clamped
per-request size and an oracle whose every batch normalizes successfully,
the loop never exhausts its fuel while work remains — fuel `total` (one
unit per loop iteration, each of which raises `made` by at least 1)
completes every job, so `run_job` models every program-successful run as a
success, for every `variants_per_request` and every `total` (including
`total = 0` and the per-request default of 1). -/
theorem jobGo_completes (oracle : Nat → Option JsonV) (total per : Nat) (hper : 1 ≤ per)
    (hOK : ∀ i k, 1 ≤ k → k ≤ per →
      ∃ data vs, oracle i = some data ∧ normalizeToVariants data k = some vs) :
    ∀ (fuel made : Nat), total - made ≤ fuel →
      ∀ (batchIdx gvi : Nat),
        (jobGo oracle total per fuel batchIdx made gvi).isSome = true := by
  intro fuel
  induction fuel with
  | zero =>
    intro made hm b gvi
    rw [jobGo, if_neg (by omega : ¬ made < total)]
    rfl
  | succ n ih =>
    intro made hm b gvi
    rw [jobGo]
    by_cases hlt : made < total
    · rw [if_pos hlt]
      obtain ⟨data, vs, hdata, hnorm⟩ := hOK b (min per (total - made)) (by omega) (by omega)
      simp only [hdata, hnorm]
      have hlen := normalizeToVariants_length data _ vs (by omega) hnorm
      have hrec := ih (made + vs.length) (by omega) (b + 1) (gvi + vs.length)
      cases hr : jobGo oracle total per n (b + 1) (made + vs.length) (gvi + vs.length) with
      | none => rw [hr] at hrec; cases hrec
      | some rest => simp [hr]
    · rw [if_neg hlt]
      rfl

/-- Claim C2: across one whole job that terminates without raising, the global
variant indices attached to written files are exactly `1, 2, ..., total` in
write order: they start at 1, increase strictly by 1, never repeat
regardless of how many batches were needed, and their count equals the
requested total. -/
theorem c2_global_variant_index (oracle : Nat → Option JsonV) (total : Nat) (vpr : Int)
    (idxs : List Nat) (h : run_job oracle total vpr = some idxs) :
    idxs = List.range' 1 total
  ∧ idxs.length = total
  ∧ List.Chain' (fun a b => b = a + 1) idxs
  ∧ idxs.Nodup
  ∧ (0 < total → idxs.head? = some 1) := by
  have hspec := jobGo_spec oracle total (per_req vpr) (per_req_pos vpr) total 0 0 0 idxs h
  simp only [Nat.sub_zero, Nat.zero_add] at hspec
  subst hspec
  refine ⟨rfl, by simp, chain'_succ_range' 1 total, List.nodup_range' 1 total, ?_⟩
  intro ht
  rw [List.head?_range', if_neg (by omega)]

/-- Witness for C2: a job of 3 variants at 2 per request, answered by an
oracle that always offers a caption object wrapping a 2-element `variants`
list, writes exactly the indices `[1, 2, 3]`; the same oracle also
completes the `variants_per_request = 1` CLI-default jobs taking one batch
per variant, a single-variant job, and the empty job. -/
theorem c2_global_variant_index_witness :
    run_job (fun _ => some (JsonV.obj [(captionKey, JsonV.str []),
        (variantsKey, JsonV.arr [JsonV.obj [(captionKey, JsonV.str [])],
          JsonV.obj [(captionKey, JsonV.str [])]])])) 3 2 = some [1, 2, 3]
  ∧ run_job (fun _ => some (JsonV.obj [(captionKey, JsonV.str []),
        (variantsKey, JsonV.arr [JsonV.obj [(captionKey, JsonV.str [])],
          JsonV.obj [(captionKey, JsonV.str [])]])])) 3 1 = some [1, 2, 3]
  ∧ run_job (fun _ => some (JsonV.obj [(captionKey, JsonV.str []),
        (variantsKey, JsonV.arr [JsonV.obj [(captionKey, JsonV.str [])],
          JsonV.obj [(captionKey, JsonV.str [])]])])) 1 2 = some [1]
  ∧ run_job (fun _ => some (JsonV.obj [(captionKey, JsonV.str []),
        (variantsKey, JsonV.arr [JsonV.obj [(captionKey, JsonV.str [])],
          JsonV.obj [(captionKey, JsonV.str [])]])])) 0 1 = some []
  ∧ ([1, 2, 3] : List Nat) = List.range' 1 3
  ∧ ([1, 2, 3] : List Nat).Nodup :=
  ⟨rfl, rfl, rfl, rfl,
    (c2_global_variant_index (fun _ => some (JsonV.obj [(captionKey, JsonV.str []),
        (variantsKey, JsonV.arr [JsonV.obj [(captionKey, JsonV.str [])],
          JsonV.obj [(captionKey, JsonV.str [])]])])) 3 2 [1, 2, 3] rfl).1,
    (c2_global_variant_index (fun _ => some (JsonV.obj [(captionKey, JsonV.str []),
        (variantsKey, JsonV.arr [JsonV.obj [(captionKey, JsonV.str [])],
          JsonV.obj [(captionKey, JsonV.str [])]])])) 3 2 [1, 2, 3] rfl).2.2.2.1⟩

/-- Claim C4: robust JSON parsing proceeds in exactly three attempts — a strict
parse of the normalized text; on failure a retry on the text trimmed to its
last balanced top-level brace/bracket span; on failure again one final
retry on the text truncated at its last closing brace — and when every
attempt fails (including when no closing brace exists for the third
attempt) a parse failure is raised. -/
theorem c4_three_attempt_parse (parse : List Char → Option JsonV) (raw : List Char) :
    (∀ v, parse (normalized_response raw) = some v →
      robust_parse_json parse raw = some v)
  ∧ (parse (normalized_response raw) = none →
      ∀ v, parse (trim_to_complete_json (normalized_response raw)) = some v →
        robust_parse_json parse raw = some v)
  ∧ (parse (normalized_response raw) = none →
      parse (trim_to_complete_json (normalized_response raw)) = none →
      ∀ t, take_to_last_brace (normalized_response raw) = some t →
        robust_parse_json parse raw = parse t)
  ∧ (parse (normalized_response raw) = none →
      parse (trim_to_complete_json (normalized_response raw)) = none →
      take_to_last_brace (normalized_response raw) = none →
      robust_parse_json parse raw = none) := by
  refine ⟨?_, ?_, ?_, ?_⟩
  · intro v hv
    simp only [robust_parse_json, hv]
  · intro h1 v hv
    simp only [robust_parse_json, h1, hv]
  · intro h1 h2 t ht
    simp only [robust_parse_json, h1, h2, ht]
  · intro h1 h2 h3
    simp only [robust_parse_json, h1, h2, h3]

/-- Witness for C4: with a parser that rejects everything and the raw text
`"x"` (which contains no closing brace), all attempts fail and robust
parsing raises. -/
theorem c4_three_attempt_parse_witness :
    ((fun _ => (none : Option JsonV)) (normalized_response "x".data) = none)
  ∧ ((fun _ => (none : Option JsonV)) (trim_to_complete_json (normalized_response "x".data)) = none)
  ∧ take_to_last_brace (normalized_response "x".data) = none
  ∧ robust_parse_json (fun _ => none) "x".data = none :=
  ⟨rfl, rfl, rfl,
    (c4_three_attempt_parse (fun _ => none) "x".data).2.2.2 rfl rfl rfl⟩

/-- When every attempt from `a` through `retries` fails, the retry loop
sleeps the linearly increasing delays for attempts `a, ..., retries - 1`
and then fails carrying the first 800 characters of the `raw` variable,
whose value is the fold of the calls' texts over the remaining attempts. -/
theorem retryGo_exhaust (parse : List Char → Option JsonV) (call : Nat → Option (List Char))
    (retries : Nat) :
    ∀ (fuel a : Nat) (raw : List Char) (ds : List ℚ),
      fuel = retries + 1 - a → a ≤ retries →
      (∀ b, a ≤ b → b ≤ retries → attemptFails parse (call b) = true) →
      retryGo parse call retries fuel a raw ds =
        (Except.error (((List.range' a (retries + 1 - a)).foldl
            (fun acc b => match call b with | some r => r | none => acc) raw).take 800),
         ds ++ (List.range' a (retries - a)).map backoff_delay) := by
  intro fuel
  induction fuel with
  | zero => intro a raw ds hfuel ha hfail; omega
  | succ n ih =>
    intro a raw ds hfuel ha hfail
    by_cases hra : retries ≤ a
    · have hr2 : retries + 1 - a = 1 := by omega
      have hr3 : retries - a = 0 := by omega
      rw [hr2, hr3]
      cases hc : call a with
      | none =>
        simp only [retryGo, hc, if_pos hra, List.range'_one, List.foldl_cons, List.foldl_nil,
          List.range'_zero, List.map_nil, List.append_nil]
      | some r =>
        have hf := hfail a le_rfl ha
        rw [hc] at hf; rw [attemptFails] at hf
        by_cases he : (stripPy r).isEmpty
        · simp only [retryGo, hc, he, if_true, if_pos hra, List.range'_one, List.foldl_cons,
            List.foldl_nil, List.range'_zero, List.map_nil, List.append_nil]
        · have hro : (robust_parse_json parse r).isNone = true := by
            rcases (Bool.or_eq_true _ _).mp hf with h | h
            · exact absurd h he
            · exact h
          have hrn : robust_parse_json parse r = none := Option.isNone_iff_eq_none.mp hro
          simp only [retryGo, hc, he, if_false, Bool.false_eq_true, hrn, if_pos hra,
            List.range'_one, List.foldl_cons, List.foldl_nil, List.range'_zero,
            List.map_nil, List.append_nil]
    · have hr2 : retries + 1 - a = (retries + 1 - (a + 1)) + 1 := by omega
      have hr3 : retries - a = (retries - (a + 1)) + 1 := by omega
      rw [hr2, hr3, List.range'_succ, List.range'_succ, List.foldl_cons, List.map_cons]
      have hih := fun raw' => ih (a + 1) raw' (ds ++ [backoff_delay a]) (by omega) (by omega)
        (fun b h1 h2 => hfail b (by omega) h2)
      cases hc : call a with
      | none =>
        simp only [retryGo, hc, if_neg hra]
        rw [hih raw]
        simp
      | some r =>
        have hf := hfail a le_rfl ha
        rw [hc] at hf; rw [attemptFails] at hf
        by_cases he : (stripPy r).isEmpty
        · simp only [retryGo, hc, he, if_true, if_neg hra]
          rw [hih r]
          simp
        · have hro : (robust_parse_json parse r).isNone = true := by
            rcases (Bool.or_eq_true _ _).mp hf with h | h
            · exact absurd h he
            · exact h
          have hrn : robust_parse_json parse r = none := Option.isNone_iff_eq_none.mp hro
          simp only [retryGo, hc, he, if_false, Bool.false_eq_true, hrn, if_neg hra]
          rw [hih r]
          simp

/-- The backoff delay grows strictly with the attempt index. -/
theorem backoff_delay_lt {a b : Nat} (h : a < b) : backoff_delay a < backoff_delay b := by
  unfold backoff_delay
  have hab : (a : ℚ) + 1 < (b : ℚ) + 1 := by
    have : (a : ℚ) < (b : ℚ) := by exact_mod_cast h
    linarith
  have h65 : (0 : ℚ) < 6 / 5 := by norm_num
  exact mul_lt_mul_of_pos_left hab h65

/-- Claim C6: when the request or the parse of a batch fails on every attempt —
an exception, an empty response string (a transient failure raised at the
orchestration level, not retried inside the driver), or a parse failure —
the loop sleeps the linearly increasing delays `1.2·1, ..., 1.2·retries`
and then fails carrying the first 800 characters of the raw text; and an
empty first response followed by a good second response costs exactly one
backoff delay and then succeeds. -/
theorem c6_retry_policy (parse : List Char → Option JsonV) (call : Nat → Option (List Char))
    (retries : Nat) :
    ((∀ b, b ≤ retries → attemptFails parse (call b) = true) →
      run_with_retries parse call retries =
        (Except.error ((rawAfter call [] retries).take 800),
          (List.range retries).map backoff_delay)
      ∧ List.Chain' (· < ·) ((List.range retries).map backoff_delay))
  ∧ (∀ (e g : List Char) (d : JsonV), 1 ≤ retries →
      call 0 = some e → stripPy e = [] →
      call 1 = some g → (stripPy g).isEmpty = false →
      robust_parse_json parse g = some d →
      run_with_retries parse call retries = (Except.ok d, [backoff_delay 0])) := by
  constructor
  · intro hfail
    constructor
    · rw [run_with_retries,
        retryGo_exhaust parse call retries (retries + 1) 0 [] [] (by omega) (by omega)
          (fun b _ hb2 => hfail b hb2)]
      rw [rawAfter, List.range_eq_range']
      simp [List.range_eq_range']
    · have hpair : ((List.range retries).map backoff_delay).Pairwise (· < ·) :=
        (List.pairwise_lt_range retries).map backoff_delay (fun _ _ h => backoff_delay_lt h)
      exact hpair.chain'
  · intro e g d hr1 hc0 he hc1 hg hp
    obtain ⟨m, rfl⟩ : ∃ m, retries = m + 1 := ⟨retries - 1, by omega⟩
    rw [run_with_retries]
    rw [retryGo]
    simp only [hc0, he, List.isEmpty_nil, if_true, if_neg (by omega : ¬ m + 1 ≤ 0)]
    rw [retryGo]
    simp only [hc1, hg, Bool.false_eq_true, if_false, hp, List.nil_append]

/-- Witness for C6 at `retries = 2` with a parser rejecting everything:
all three attempts fail, and the loop returns the 800-character error
fragment together with both backoff delays. -/
theorem c6_retry_policy_witness :
    (∀ b, b ≤ 2 → attemptFails (fun _ => none) ((fun _ => some ['z']) b) = true)
  ∧ run_with_retries (fun _ => none) (fun _ => some ['z']) 2 =
      (Except.error ((rawAfter (fun _ => some ['z']) [] 2).take 800),
        (List.range 2).map backoff_delay) :=
  ⟨by decide, ((c6_retry_policy (fun _ => none) (fun _ => some ['z']) 2).1 (by decide)).1⟩

/-! Lemmas about hashtag extraction and caption fan-out. -/

/-- Tag characters are never whitespace. -/
theorem isTagChar_not_space {c : Char} (h : isTagChar c = true) : isPySpace c = false := by
  by_contra hs
  have hs' : isPySpace c = true := by
    cases hps : isPySpace c
    · exact absurd hps hs
    · rfl
  have hcases : ((((c = ' ' ∨ c = '\t') ∨ c = '\n') ∨ c = '\x0d') ∨ c = '\x0b') ∨ c = '\x0c' := by
    simpa [isPySpace] using hs'
  rcases hcases with ((((rfl | rfl) | rfl) | rfl) | rfl) | rfl <;> exact absurd h (by decide)

/-- Destructuring of a shaped tag. -/
theorem isTagShaped_elim {t : List Char} (h : isTagShaped t = true) :
    ∃ run, t = '#' :: run ∧ run ≠ [] ∧ run.all isTagChar = true := by
  cases t with
  | nil => exact absurd h (by decide)
  | cons c rest =>
    simp only [isTagShaped, Bool.and_eq_true, beq_iff_eq, Bool.not_eq_true'] at h
    obtain ⟨⟨rfl, hne⟩, hall⟩ := h
    exact ⟨rest, rfl, by simpa using hne, hall⟩

/-- Space-joining two or more tags. -/
theorem intercalate_space_cons₂ (a b : List Char) (m : List (List Char)) :
    List.intercalate [' '] (a :: b :: m) = a ++ ' ' :: List.intercalate [' '] (b :: m) := by
  simp [List.intercalate, List.intersperse]

/-- Space-joining a single tag. -/
theorem intercalate_space_one (a : List Char) :
    List.intercalate [' '] [a] = a := by
  simp [List.intercalate, List.intersperse]

/-- Every tag emitted by the hashtag scan is `#` followed by a nonempty run
of tag characters, provided the pending accumulator only holds tag
characters (as is the case from the top-level entry point). -/
theorem tagScan_tags_shape :
    ∀ (s : List Char) (st : Option (List Char)),
      (∀ c ∈ st.getD [], isTagChar c = true) →
      ∀ t ∈ (tagScan st s).2, isTagShaped t = true := by
  intro s
  induction s with
  | nil =>
    intro st hst t ht
    cases st with
    | none => simp [tagScan] at ht
    | some acc =>
      by_cases hacc : acc = []
      · subst hacc; simp [tagScan] at ht
      · rw [tagScan, if_neg hacc] at ht
        have hteq : t = '#' :: acc.reverse := by simpa using ht
        subst hteq
        simp only [isTagShaped, Bool.and_eq_true, beq_self_eq_true, true_and,
          Bool.not_eq_true', List.all_eq_true]
        constructor
        · simp [List.isEmpty_iff, hacc]
        · intro c hc
          exact hst c (by simpa using List.mem_reverse.mp hc)
  | cons c r ih =>
    intro st hst t ht
    cases st with
    | none =>
      by_cases hc : c = '#'
      · subst hc
        rw [tagScan, if_pos rfl] at ht
        exact ih (some []) (by simp) t ht
      · rw [tagScan, if_neg hc] at ht
        rcases hE : tagScan none r with ⟨b, ts⟩
        rw [hE] at ht
        simp only at ht
        exact ih none (by simp) t (by rw [hE]; simpa using ht)
    | some acc =>
      by_cases htc : isTagChar c = true
      · rw [tagScan, if_pos htc] at ht
        refine ih (some (c :: acc)) ?_ t ht
        intro d hd
        rcases List.mem_cons.mp (by simpa using hd) with rfl | hd'
        · exact htc
        · exact hst d (by simpa using hd')
      · by_cases hacc : acc = []
        · subst hacc
          rw [tagScan, if_neg htc, if_pos rfl] at ht
          by_cases hc : c = '#'
          · rw [if_pos hc] at ht
            rcases hE : tagScan (some []) r with ⟨b, ts⟩
            rw [hE] at ht
            simp only at ht
            exact ih (some []) (by simp) t (by rw [hE]; simpa using ht)
          · rw [if_neg hc] at ht
            rcases hE : tagScan none r with ⟨b, ts⟩
            rw [hE] at ht
            simp only at ht
            exact ih none (by simp) t (by rw [hE]; simpa using ht)
        · rw [tagScan, if_neg htc, if_neg hacc] at ht
          have hshape : isTagShaped ('#' :: acc.reverse) = true := by
            simp only [isTagShaped, Bool.and_eq_true, beq_self_eq_true, true_and,
              Bool.not_eq_true', List.all_eq_true]
            constructor
            · simp [List.isEmpty_iff, hacc]
            · intro d hd
              exact hst d (by simpa using List.mem_reverse.mp hd)
          by_cases hc : c = '#'
          · rw [if_pos hc] at ht
            rcases hE : tagScan (some []) r with ⟨b, ts⟩
            rw [hE] at ht
            simp only at ht
            rcases List.mem_cons.mp ht with rfl | ht'
            · exact hshape
            · exact ih (some []) (by simp) t (by rw [hE]; simpa using ht')
          · rw [if_neg hc] at ht
            rcases hE : tagScan none r with ⟨b, ts⟩
            rw [hE] at ht
            simp only at ht
            rcases List.mem_cons.mp ht with rfl | ht'
            · exact hshape
            · exact ih none (by simp) t (by rw [hE]; simpa using ht')

/-- Dropping a prefix cannot eat into a tail whose head fails the
predicate. -/
theorem dropWhile_keeps_tail (p : Char → Bool) :
    ∀ (xs ys : List Char) (h : Char) (hy : ys = h :: ys.tail) (hp : p h = false),
      ∃ pre, List.dropWhile p (xs ++ ys) = pre ++ ys := by
  intro xs
  induction xs with
  | nil =>
    intro ys h hy hp
    refine ⟨[], ?_⟩
    simp only [List.nil_append]
    rw [hy, List.dropWhile_cons_of_neg (by simp [hp])]
  | cons x xs ih =>
    intro ys h hy hp
    by_cases hx : p x = true
    · obtain ⟨pre, hpre⟩ := ih ys h hy hp
      exact ⟨pre, by rw [List.cons_append, List.dropWhile_cons_of_pos hx, hpre]⟩
    · exact ⟨x :: xs, by rw [List.cons_append, List.dropWhile_cons_of_neg (by simp [hx])]⟩

/-- Right strip is the identity on a list whose last character is not
whitespace. -/
theorem rstripL_of_last_not_space (l : List Char) (c : Char)
    (hl : l.getLast? = some c) (hc : isPySpace c = false) : rstripL l = l := by
  rw [rstripL]
  have hrev : l.reverse.head? = some c := by rw [List.head?_reverse, hl]
  cases hr : l.reverse with
  | nil => rw [hr] at hrev; cases hrev
  | cons d rest =>
    rw [hr] at hrev
    have hdc : d = c := by simpa using hrev
    subst hdc
    rw [List.dropWhile_cons_of_neg (by simp [hc]), ← hr, List.reverse_reverse]

/-- The space-joined tag list ends in a tag character, hence not in
whitespace. -/
theorem joined_tags_getLast (tags : List (List Char)) :
    tags ≠ [] → (∀ t ∈ tags, isTagShaped t = true) →
    ∃ c, (List.intercalate [' '] tags).getLast? = some c ∧ isPySpace c = false := by
  induction tags with
  | nil => intro h; exact absurd rfl h
  | cons a l ih =>
    intro _ hall
    cases l with
    | nil =>
      obtain ⟨run, rfl, hne, hrun⟩ := isTagShaped_elim (hall a (by simp))
      rw [intercalate_space_one]
      rcases List.eq_nil_or_concat run with rfl | ⟨q, d, rfl⟩
      · exact absurd rfl hne
      · refine ⟨d, ?_, ?_⟩
        · have hsplit : ('#' :: q.concat d : List Char) = ('#' :: q) ++ [d] := by simp
          rw [hsplit, List.getLast?_concat]
        · have hd : isTagChar d = true := List.all_eq_true.mp hrun d (by simp)
          exact isTagChar_not_space hd
    | cons b m =>
      obtain ⟨c, hc, hcs⟩ := ih (by simp) (fun t ht => hall t (List.mem_cons_of_mem a ht))
      refine ⟨c, ?_, hcs⟩
      rw [intercalate_space_cons₂, List.getLast?_append]
      have h2 : (' ' :: List.intercalate [' '] (b :: m)).getLast? = some c := by
        have hcons : (' ' :: List.intercalate [' '] (b :: m)) =
            [' '] ++ List.intercalate [' '] (b :: m) := rfl
        rw [hcons, List.getLast?_append, hc]
        rfl
      rw [h2]
      rfl

/-- The space-joined tag list starts with the `#` of its first tag. -/
theorem joined_tags_head (tags : List (List Char)) :
    tags ≠ [] → (∀ t ∈ tags, isTagShaped t = true) →
    ∃ rest, List.intercalate [' '] tags = '#' :: rest := by
  intro hne hall
  cases tags with
  | nil => exact absurd rfl hne
  | cons a l =>
    obtain ⟨run, rfl, _, _⟩ := isTagShaped_elim (hall a (by simp))
    cases l with
    | nil => exact ⟨run, intercalate_space_one _⟩
    | cons b m =>
      refine ⟨run ++ ' ' :: List.intercalate [' '] (b :: m), ?_⟩
      rw [intercalate_space_cons₂]
      simp

/-- Every tag of the list occurs verbatim inside the space-joined list. -/
theorem tag_infix_joined :
    ∀ (tags : List (List Char)) (t : List Char), t ∈ tags →
      ∃ p q, List.intercalate [' '] tags = p ++ t ++ q := by
  intro tags
  induction tags with
  | nil => intro t ht; simp at ht
  | cons a l ih =>
    intro t ht
    rcases List.mem_cons.mp ht with rfl | ht'
    · cases l with
      | nil => exact ⟨[], [], by rw [intercalate_space_one]; simp⟩
      | cons b m =>
        exact ⟨[], ' ' :: List.intercalate [' '] (b :: m), by rw [intercalate_space_cons₂]; simp⟩
    · cases l with
      | nil => simp at ht'
      | cons b m =>
        obtain ⟨p, q, hpq⟩ := ih t ht'
        refine ⟨a ++ ' ' :: p, q, ?_⟩
        rw [intercalate_space_cons₂, hpq]
        simp

/-- Claim C7: the hashtag set extracted from the original caption is appended,
each tag byte-for-byte, to every variant's rewritten caption before the
caption file is written: every extracted tag is `#` plus a nonempty run of
tag characters, the space-joined tag block survives both strips as a suffix
of the written caption, and each individual tag occurs verbatim in it. -/
theorem c7_hashtags_appended :
    (∀ (caption t : List Char),
        t ∈ (split_caption_and_tags caption).2 → isTagShaped t = true)
  ∧ (∀ (modelCap : Option (List Char)) (tags : List (List Char)),
        tags ≠ [] → (∀ t ∈ tags, isTagShaped t = true) →
        (∃ pre, written_caption modelCap tags = pre ++ List.intercalate [' '] tags)
        ∧ ∀ t ∈ tags, ∃ p q, written_caption modelCap tags = p ++ t ++ q) := by
  constructor
  · intro caption t ht
    rcases hE : tagScan none caption with ⟨b, ts⟩
    have ht' : t ∈ (tagScan none caption).2 := by
      rw [split_caption_and_tags] at ht
      rw [hE] at ht ⊢
      simpa using ht
    exact tagScan_tags_shape caption none (by simp) t ht'
  · intro modelCap tags hne hall
    obtain ⟨hd, hhd⟩ := joined_tags_head tags hne hall
    obtain ⟨lc, hlc, hlcs⟩ := joined_tags_getLast tags hne hall
    have hJ : List.intercalate [' '] tags = '#' :: (List.intercalate [' '] tags).tail := by
      rw [hhd]
      rfl
    have hsharp : isPySpace '#' = false := by decide
    have key : ∃ pre, written_caption modelCap tags =
        pre ++ List.intercalate [' '] tags := by
      rw [written_caption]
      rw [if_neg (by simpa [List.isEmpty_iff] using hne)]
      have hsplit : stripPy (modelCap.getD []) ++ '\n' :: List.intercalate [' '] tags =
          (stripPy (modelCap.getD []) ++ ['\n']) ++ List.intercalate [' '] tags := by
        simp
      rw [hsplit, stripPy]
      obtain ⟨pre, hpre⟩ := dropWhile_keeps_tail isPySpace
        (stripPy (modelCap.getD []) ++ ['\n']) (List.intercalate [' '] tags) '#' hJ hsharp
      rw [lstripL, hpre]
      refine ⟨pre, ?_⟩
      apply rstripL_of_last_not_space _ lc _ hlcs
      rw [List.getLast?_append, hlc]
      rfl
    refine ⟨key, ?_⟩
    intro t ht
    obtain ⟨pre, hpre⟩ := key
    obtain ⟨p, q, hpq⟩ := tag_infix_joined tags t ht
    refine ⟨pre ++ p, q, ?_⟩
    rw [hpre, hpq]
    simp

/-- Witness for C7: for tags `#fun` and `#test` and a model caption, the
space-joined tag block is a suffix of the written caption. -/
theorem c7_hashtags_appended_witness :
    (["#fun".data, "#test".data] : List (List Char)) ≠ []
  ∧ (∀ t ∈ (["#fun".data, "#test".data] : List (List Char)), isTagShaped t = true)
  ∧ ∃ pre, written_caption (some "New cap".data) ["#fun".data, "#test".data] =
      pre ++ List.intercalate [' '] ["#fun".data, "#test".data] :=
  ⟨by decide, by decide,
    (c7_hashtags_appended.2 (some "New cap".data) ["#fun".data, "#test".data]
      (by decide) (by decide)).1⟩

/-! Lemmas about the normalization pass (steps 1-3). -/

/-- Replacing a character that does not occur leaves the text unchanged. -/
theorem replaceChar_id {a b : Char} {s : List Char} (h : ∀ c ∈ s, c ≠ a) :
    replaceChar a b s = s := by
  rw [replaceChar]
  have hpt : ∀ c ∈ s, (fun c => if c = a then b else c) c = c := fun c hc => if_neg (h c hc)
  rw [List.map_congr_left hpt, List.map_id']

/-- Smart-quote normalization is the identity on text without smart
quotes. -/
theorem normalize_quotes_id {s : List Char} (h : cleanQuotes s = true) :
    normalize_quotes s = s := by
  have h' := List.all_eq_true.mp h
  have hc4 : ∀ c ∈ s, c ≠ '“' ∧ c ≠ '”' ∧ c ≠ '‘' ∧ c ≠ '’' := by
    intro c hc
    have := h' c hc
    simp only [Bool.not_eq_true', Bool.or_eq_false_iff, beq_eq_false_iff_ne] at this
    exact ⟨this.1.1.1, this.1.1.2, this.1.2, this.2⟩
  rw [normalize_quotes,
    replaceChar_id (fun c hc => (hc4 c hc).1),
    replaceChar_id (fun c hc => (hc4 c hc).2.1),
    replaceChar_id (fun c hc => (hc4 c hc).2.2.1),
    replaceChar_id (fun c hc => (hc4 c hc).2.2.2)]

/-- The newline-escaping scan is the identity on text whose string literals
contain no bare newline, from any scan state. -/
theorem escGo_id :
    ∀ (s : List Char) (inS esc : Bool), cleanStrScan inS esc s = true → escGo inS esc s = s := by
  intro s
  induction s with
  | nil => intro inS esc h; cases inS <;> cases esc <;> rfl
  | cons c r ih =>
    intro inS esc h
    cases inS with
    | true =>
      cases esc with
      | true =>
        rw [cleanStrScan] at h
        rw [escGo, ih true false h]
      | false =>
        by_cases h1 : c = '\\'
        · rw [cleanStrScan, if_pos h1] at h
          rw [escGo, if_pos h1, ih true true h]
        · by_cases h2 : c = dq
          · rw [cleanStrScan, if_neg h1, if_pos h2] at h
            rw [escGo, if_neg h1, if_pos h2, ih false false h]
          · by_cases h3 : c = '\n'
            · rw [cleanStrScan, if_neg h1, if_neg h2, if_pos (by simp [h3])] at h
              exact absurd h (by decide)
            · by_cases h4 : c = '\x0d'
              · rw [cleanStrScan, if_neg h1, if_neg h2, if_pos (by simp [h4])] at h
                exact absurd h (by decide)
              · rw [cleanStrScan, if_neg h1, if_neg h2, if_neg (by simp [h3, h4])] at h
                rw [escGo, if_neg h1, if_neg h2, if_neg (by simp [h3, h4]), ih true false h]
    | false =>
      by_cases h2 : c = dq
      · rw [cleanStrScan, if_pos h2] at h
        rw [escGo, if_pos h2, ih true false h]
      · rw [cleanStrScan, if_neg h2] at h
        rw [escGo, if_neg h2, ih false esc h]

/-- Code-fence stripping is the identity on stripped, fence-free text with
no trailing whitespace on any line. -/
theorem strip_code_fences_id {s : List Char} (h1 : stripPy s = s)
    (h2 : startsFence s = false) (h3 : ∀ l ∈ s.splitOn '\n', rstripL l = l) :
    strip_code_fences s = s := by
  simp only [strip_code_fences, h1, h2, Bool.false_eq_true, if_false]
  rw [List.map_congr_left h3, List.map_id']
  exact List.intercalate_splitOn s '\n'

/-- Counterexample to C9 as stated: the composed normalization pass is not
idempotent on arbitrary strings — on six backticks followed by `json`, the
first application strips one leading fence leaving a new fence-plus-`json`
head, which a second application also strips. -/
theorem c9_counterexample :
    normalized_response (normalized_response "``````json".data)
      ≠ normalized_response "``````json".data := by
  decide

/-- Claim C9 as amended: steps 1-3 of the Normalizer are the identity on every
clean JSON text (stripped, no leading code fence, no trailing per-line
whitespace, no smart quotes, no bare newline inside string literals) — and
hence idempotent on such strings — but not idempotent on arbitrary
strings. -/
theorem c9_normalization_identity_on_clean (s : List Char)
    (h : isCleanJsonText s = true) :
    normalized_response s = s
  ∧ normalized_response (normalized_response s) = normalized_response s := by
  rw [isCleanJsonText] at h
  simp only [Bool.and_eq_true, beq_iff_eq, Bool.not_eq_true', List.all_eq_true] at h
  obtain ⟨⟨⟨⟨h1, h2⟩, h3⟩, h4⟩, h5⟩ := h
  have h3' : ∀ l ∈ s.splitOn '\n', rstripL l = l := fun l hl => by
    simpa using h3 l hl
  have hf : strip_code_fences s = s := strip_code_fences_id h1 h2 h3'
  have hq : normalize_quotes s = s := normalize_quotes_id h4
  have he : escape_newlines_in_strings s = s := escGo_id s false false h5
  have hfirst : normalized_response s = s := by
    rw [normalized_response, hf, hq, he]
  exact ⟨hfirst, by rw [hfirst, hfirst]⟩

/-- Witness for the amended C9: a concrete clean JSON object text is fixed
by the normalization pass. -/
theorem c9_normalization_identity_witness :
    isCleanJsonText "\x7b\"a\": 1\x7d".data = true
  ∧ normalized_response "\x7b\"a\": 1\x7d".data = "\x7b\"a\": 1\x7d".data :=
  ⟨by decide, (c9_normalization_identity_on_clean "\x7b\"a\": 1\x7d".data (by decide)).1⟩
